import Mathlib

/-!
Shallow embedding of the scheduling engine of `streamlit_app.py`.

Modelling conventions:
* A `datetime` is a number of minutes since midnight of "day 0"; the week
  start (a Monday) is a day number `ws : Nat`, so the datetime
  `datetime.combine(week_start + timedelta(days=wd), t)` becomes
  `(ws + wd) * 1440 + minutes t`.  `dt.date()` is `m / 1440` and
  `dt.time()` is `m % 1440` (all values arising in the engine are
  non-negative, so Python floor division and Lean `Nat` division agree).
* A `time` (clock time) is its minutes-since-midnight value.
* Task durations (`int(dur_hours * 60)` in Python, exact for the catalog's
  values 1.0, 1.5, 2.0, 0.75) are stored directly in minutes.
* In `can_place` the Python code computes `start - timedelta(minutes=15)`
  on exact datetimes; here it is `Nat` subtraction, which agrees because
  every candidate `start` passed in by the engine is at least the window
  start `13 * 60 = 780 > 15`.
-/

/-- Python dataclass `Event` (field `end` is called `stop` here, `end` being
a Lean keyword). -/
structure Event where
  name : String
  start : Nat
  stop : Nat
  color : String
  kind : String   -- "teaching" or "task"
deriving DecidableEq, Repr

/-- The fixed teaching table `TEACHING` (clock times in minutes);
weekday: Monday=0 ... Sunday=6; `TEACHING.get(wd, [])` semantics. -/
def TEACHING : Nat → List (String × Nat × Nat × String)
  | 0 => [("Beginner Class", 1020, 1080, "#a855f7"),
          ("Leo Mootoo", 1095, 1155, "#ef4444")]
  | 1 => [("Pranava Classes", 810, 1050, "#14b8a6"),
          ("Advanced Class", 1110, 1170, "#3b82f6")]
  | 2 => [("Jaydon", 1110, 1170, "#f97316")]
  | 3 => [("Beginner Class", 1020, 1080, "#a855f7")]
  | 4 => [("Leo Mootoo", 1020, 1080, "#ef4444")]
  | 6 => [("Amrit", 1140, 1200, "#84cc16")]
  | _ => []

/-- The `TASK_SPECS` catalog: (name, duration in minutes, occurrences, color). -/
def TASK_SPECS : List (String × Nat × Nat × String) :=
  [("My System", 60, 2, "#8b5cf6"),
   ("Calculation", 60, 4, "#f472b6"),
   ("Opening Study", 60, 5, "#6366f1"),
   ("Middlegame Study", 90, 2, "#ec4899"),
   ("Endgame Study", 60, 2, "#22c55e"),
   ("chessable/website tasks", 120, 2, "#0ea5e9"),
   ("League Study", 120, 2, "#f59e0b"),
   ("Gym", 45, 2, "#10b981")]

def BUFFER_MIN : Nat := 15
def WINDOW_START : Nat := 13 * 60        -- time(13, 0)
def WINDOW_END_NEXTDAY : Nat := 2 * 60   -- time(2, 0), on the next day
def MAX_TASKS_WEEKDAY : Nat := 3
def MAX_TASKS_WEEKEND : Nat := 4

/-- Python `overlaps`: two half-open intervals overlap unless one precedes the other. -/
def overlaps (a_start a_end b_start b_end : Nat) : Bool :=
  !(decide (a_end ≤ b_start) || decide (a_start ≥ b_end))

/-- Python `can_place`: buffer the candidate by `BUFFER_MIN` on both sides and
require no overlap with any already-placed event. -/
def can_place (events : List Event) (start stop : Nat) : Bool :=
  let s := start - BUFFER_MIN
  let e := stop + BUFFER_MIN
  events.all fun ev => !overlaps s e ev.start ev.stop

/-- Python `day_window d`: from `13:00` on day `d` to `2:00` on day `d+1`. -/
def day_window (d : Nat) : Nat × Nat :=
  (d * 1440 + WINDOW_START, (d + 1) * 1440 + WINDOW_END_NEXTDAY)

/-- Python `snap_15 dt = dt.replace(minute=(dt.minute // 15) * 15)`: in minutes,
rounding down to a multiple of 15 (seconds/microseconds are always 0 here). -/
def snap_15 (m : Nat) : Nat := m / 15 * 15

/-- The `preferred_start_times` list (clock times in minutes). -/
def preferred_start_times : List Nat :=
  [1320, 1335, 1350, 1365,
   1380, 1395, 1410, 1425,
   1260, 1275, 1290, 1305,
   1200, 1215, 1230, 1245,
   780, 795, 810, 825,
   840, 855, 870, 885,
   900, 915, 930, 945,
   960, 975, 990, 1005,
   1020, 1035, 1050, 1065,
   1080, 1095, 1110, 1125,
   1140, 1155, 1170, 1185]

/-- The list `preferred_days = [0, 3, 2, 4, 5, 6, 1]` (Mon Thu Wed Fri Sat Sun Tue). -/
def preferred_days : List Nat := [0, 3, 2, 4, 5, 6, 1]

/-- The `while cur + dur <= wend` full-scan loop of `try_place_task_on_day`,
written with an explicit iteration bound so that it is structurally
recursive; the engine calls it with `fuel = wend + 1 - cur`, which exceeds
the number of iterations (the loop advances `cur` by 15 each time), so the
`cur + dur ≤ wend` test is the real exit condition exactly as in the source. -/
def scanLoop (fuel : Nat) (cur dur wend : Nat) : List Nat :=
  match fuel with
  | 0 => []
  | fuel + 1 => if cur + dur ≤ wend then cur :: scanLoop fuel (cur + 15) dur wend else []

/-- The de-duplication loop of `try_place_task_on_day` (`seen` set as a list,
first-seen order preserved). -/
def dedupe (seen : List Nat) : List Nat → List Nat
  | [] => []
  | c :: rest => if c ∈ seen then dedupe seen rest else c :: dedupe (c :: seen) rest

/-- The `for start in uniq` loop of `try_place_task_on_day`: task-specific
guards for "Gym" and "chessable/website tasks", then the buffer/overlap
check; the first accepted candidate yields the new event. -/
def placeLoop (events : List Event) (task_name : String) (dur : Nat) (color : String)
    (d : Nat) : List Nat → Option Event
  | [] => none
  | start :: rest =>
    let stop := start + dur
    -- Gym rule: must end by 9 PM same day
    if task_name == "Gym" &&
        (decide (start / 1440 ≠ stop / 1440) || decide (1260 < stop % 1440)) then
      placeLoop events task_name dur color d rest
    -- chessable/website tasks: only after 9 PM, start same day (not after midnight)
    else if task_name == "chessable/website tasks" &&
        (decide (start % 1440 < 1260) || decide (start / 1440 ≠ d)) then
      placeLoop events task_name dur color d rest
    else if can_place events start stop then
      some ⟨task_name, start, stop, color, "task"⟩
    else
      placeLoop events task_name dur color d rest

/-- The preferred-clock-time candidates of `try_place_task_on_day`: each
preferred time is mapped onto day `d` (or `d + 1` for clock times before the
window start) and kept when the resulting start fits the day window. -/
def prefCandidates (d dur : Nat) : List Nat :=
  preferred_start_times.filterMap fun t =>
    let base_date := if WINDOW_START ≤ t then d else d + 1
    let start := snap_15 (base_date * 1440 + t)
    if (day_window d).1 ≤ start ∧ start + dur ≤ (day_window d).2 then some start else none

/-- The full-scan fallback candidates of `try_place_task_on_day`
(`cur = snap_15(wstart); while cur + dur <= wend: ...`). -/
def scanCandidates (d dur : Nat) : List Nat :=
  scanLoop ((day_window d).2 + 1 - snap_15 (day_window d).1)
    (snap_15 (day_window d).1) dur (day_window d).2

/-- The de-duplicated candidate list of `try_place_task_on_day`
(preferred times first, then the full scan). -/
def uniqCandidates (d dur : Nat) : List Nat :=
  dedupe [] (prefCandidates d dur ++ scanCandidates d dur)

/-- Python `try_place_task_on_day` for week start `ws`: build the candidate list,
de-duplicate, and run the placement loop.  Returns the event to append
rather than mutating the event list. -/
def try_place_task_on_day (ws : Nat) (events : List Event) (task_name : String)
    (dur : Nat) (color : String) (wd : Nat) : Option Event :=
  let d := ws + wd
  placeLoop events task_name dur color d (uniqCandidates d dur)

/-- The engine's per-run bookkeeping: the growing event list, `used_days`
(keyed by task name), `tasks_per_day` (indexed by weekday 0..6) and
`gym_days`. -/
structure SchedState where
  events : List Event
  used_days : List (String × List Nat)
  tasks_per_day : List Nat
  gym_days : List Nat
deriving DecidableEq, Repr

/-- Lookup `used_days[name]` / `used_days.get(name, set())` (every task name of the
catalog is a key of `used_days`, so the default is never consulted there). -/
def usedOf (u : List (String × List Nat)) (n : String) : List Nat :=
  match u.find? (fun p => p.1 == n) with
  | some p => p.2
  | none => []

/-- Update `used_days[name].add(wd)`. -/
def addUsed (u : List (String × List Nat)) (n : String) (wd : Nat) :
    List (String × List Nat) :=
  u.map fun p => if p.1 == n then (p.1, wd :: p.2) else p

/-- Python `abs(wd - gd)` on weekday indices. -/
def dayDist (a b : Nat) : Nat := ((a : Int) - (b : Int)).natAbs

/-- The strict pass over `preferred_days`: skip used days, the
Opening/Endgame exclusion, the per-day quota, and the Gym spacing rule;
otherwise attempt a time placement.  Returns the chosen weekday and event. -/
def strictPass (ws : Nat) (st : SchedState) (name : String) (dur : Nat)
    (color : String) : List Nat → Option (Nat × Event)
  | [] => none
  | wd :: rest =>
    if wd ∈ usedOf st.used_days name then
      strictPass ws st name dur color rest
    else if name == "Opening Study" && wd ∈ usedOf st.used_days "Endgame Study" then
      strictPass ws st name dur color rest
    else if name == "Endgame Study" && wd ∈ usedOf st.used_days "Opening Study" then
      strictPass ws st name dur color rest
    else if (if wd ≥ 5 then MAX_TASKS_WEEKEND else MAX_TASKS_WEEKDAY) ≤
        st.tasks_per_day.getD wd 0 then
      strictPass ws st name dur color rest
    else if name == "Gym" && st.gym_days.any (fun gd => dayDist wd gd < 2) then
      strictPass ws st name dur color rest
    else
      match try_place_task_on_day ws st.events name dur color wd with
      | some ev => some (wd, ev)
      | none => strictPass ws st name dur color rest

/-- The relaxed pass: same as the strict pass but without the quota check. -/
def relaxedPass (ws : Nat) (st : SchedState) (name : String) (dur : Nat)
    (color : String) : List Nat → Option (Nat × Event)
  | [] => none
  | wd :: rest =>
    if wd ∈ usedOf st.used_days name then
      relaxedPass ws st name dur color rest
    else if name == "Opening Study" && wd ∈ usedOf st.used_days "Endgame Study" then
      relaxedPass ws st name dur color rest
    else if name == "Endgame Study" && wd ∈ usedOf st.used_days "Opening Study" then
      relaxedPass ws st name dur color rest
    else if name == "Gym" && st.gym_days.any (fun gd => dayDist wd gd < 2) then
      relaxedPass ws st name dur color rest
    else
      match try_place_task_on_day ws st.events name dur color wd with
      | some ev => some (wd, ev)
      | none => relaxedPass ws st name dur color rest

/-- Processing of one occurrence of a task: the strict pass, then — exactly
when it fails — the relaxed pass.  On strict success the weekday is recorded,
the day counter incremented and (for Gym) the gym day recorded; on relaxed
success the day counter is NOT incremented (as in the source). -/
def placeOccurrence (ws : Nat) (st : SchedState) (name : String) (dur : Nat)
    (color : String) : SchedState :=
  match strictPass ws st name dur color preferred_days with
  | some (wd, ev) =>
      { st with
        events := st.events ++ [ev]
        used_days := addUsed st.used_days name wd
        tasks_per_day := st.tasks_per_day.set wd (st.tasks_per_day.getD wd 0 + 1)
        gym_days := if name == "Gym" then st.gym_days ++ [wd] else st.gym_days }
  | none =>
    match relaxedPass ws st name dur color preferred_days with
    | some (wd, ev) =>
        { st with
          events := st.events ++ [ev]
          used_days := addUsed st.used_days name wd
          gym_days := if name == "Gym" then st.gym_days ++ [wd] else st.gym_days }
    | none => st

/-- The loop `for _ in range(count)` around `placeOccurrence`. -/
def placeOccurrences (ws : Nat) (name : String) (dur : Nat) (color : String) :
    Nat → SchedState → SchedState
  | 0, st => st
  | count + 1, st => placeOccurrences ws name dur color count
      (placeOccurrence ws st name dur color)

/-- The outer loop `for name, hrs, count, color in TASK_SPECS`. -/
def runSpecs (ws : Nat) : List (String × Nat × Nat × String) → SchedState → SchedState
  | [], st => st
  | (name, dur, count, color) :: rest, st =>
      runSpecs ws rest (placeOccurrences ws name dur color count st)

/-- The teaching events seeded first (kind "teaching"). -/
def teachingEvents (ws : Nat) : List Event :=
  (List.range 7).flatMap fun wd =>
    (TEACHING wd).map fun p =>
      ⟨p.1, (ws + wd) * 1440 + p.2.1, (ws + wd) * 1440 + p.2.2.1, p.2.2.2, "teaching"⟩

/-- The initial scheduling state of `build_events`. -/
def initState (ws : Nat) : SchedState :=
  { events := teachingEvents ws
    used_days := TASK_SPECS.map fun s => (s.1, [])
    tasks_per_day := List.replicate 7 0
    gym_days := [] }

/-- The event list of `build_events` before the final sort. -/
def rawEvents (ws : Nat) : List Event :=
  (runSpecs ws TASK_SPECS (initState ws)).events

/-- The sort key comparison `lambda e: e.start`. -/
def startLE (a b : Event) : Bool := decide (a.start ≤ b.start)

/-- Python `build_events(week_start)`: seed teaching, place all task occurrences,
sort ascending by start. -/
def build_events (ws : Nat) : List Event :=
  (rawEvents ws).mergeSort startLE

/-- The module-level manual override: relocate the first "My System" event
whose start date is the week's Monday to Monday 13:00–14:00; all other
events, and all other fields, unchanged; no-op when no event matches. -/
def applyOverride (mon : Nat) : List Event → List Event
  | [] => []
  | ev :: rest =>
    if ev.name == "My System" && ev.start / 1440 == mon then
      { ev with start := mon * 1440 + 780, stop := mon * 1440 + 840 } :: rest
    else
      ev :: applyOverride mon rest

/-- The event list the module hands to the renderer and the PDF exporter:
`build_events`, then the manual override, then the final sort. -/
def finalEvents (ws : Nat) : List Event :=
  (applyOverride ws (build_events ws)).mergeSort startLE

/-! ### Shift equivariance

The engine's output for week start `ws` is the output for week start 0 with
every timestamp shifted by `1440 * ws` minutes.  This lets facts about the
(concrete) week-0 run be transported to every week start. -/

/-- Shift an event forward by `ws` days. -/
def shiftEv (ws : Nat) (e : Event) : Event :=
  { e with start := e.start + 1440 * ws, stop := e.stop + 1440 * ws }

/-- Shift a scheduling state forward by `ws` days (the bookkeeping maps are
weekday-indexed and do not shift). -/
def shiftState (ws : Nat) (st : SchedState) : SchedState :=
  { st with events := st.events.map (shiftEv ws) }

theorem shiftEv_start (ws : Nat) (e : Event) :
    (shiftEv ws e).start = e.start + 1440 * ws := rfl

theorem shiftEv_stop (ws : Nat) (e : Event) :
    (shiftEv ws e).stop = e.stop + 1440 * ws := rfl

theorem snap_15_shift (m ws : Nat) :
    snap_15 (m + 1440 * ws) = snap_15 m + 1440 * ws := by
  unfold snap_15; omega

theorem overlaps_shift (a b c d k : Nat) :
    overlaps (a + k) (b + k) (c + k) (d + k) = overlaps a b c d := by
  unfold overlaps
  simp [ge_iff_le]

theorem can_place_shift (evs : List Event) (start stop ws : Nat)
    (h : BUFFER_MIN ≤ start) :
    can_place (evs.map (shiftEv ws)) (start + 1440 * ws) (stop + 1440 * ws) =
      can_place evs start stop := by
  have hB : BUFFER_MIN = 15 := rfl
  have hs : start + 1440 * ws - BUFFER_MIN = start - BUFFER_MIN + 1440 * ws := by
    omega
  have he : stop + 1440 * ws + BUFFER_MIN = stop + BUFFER_MIN + 1440 * ws := by
    omega
  induction evs with
  | nil => rfl
  | cons ev rest ih =>
      simp only [can_place, List.map_cons, List.all_cons] at ih ⊢
      rw [hs, he] at ih ⊢
      rw [shiftEv_start, shiftEv_stop, overlaps_shift, ih]

theorem scanLoop_shift (fuel : Nat) : ∀ cur dur wend ws : Nat,
    scanLoop fuel (cur + 1440 * ws) dur (wend + 1440 * ws) =
      (scanLoop fuel cur dur wend).map (· + 1440 * ws) := by
  induction fuel with
  | zero => intros; rfl
  | succ n ih =>
      intro cur dur wend ws
      simp only [scanLoop]
      by_cases h : cur + dur ≤ wend
      · rw [if_pos (by omega), if_pos h, List.map_cons]
        have h15 : cur + 1440 * ws + 15 = cur + 15 + 1440 * ws := by omega
        rw [h15, ih]
      · rw [if_neg (by omega), if_neg h, List.map_nil]

theorem scanLoop_lb (fuel : Nat) : ∀ cur dur wend c : Nat,
    c ∈ scanLoop fuel cur dur wend → cur ≤ c := by
  induction fuel with
  | zero => intro _ _ _ _ h; simp [scanLoop] at h
  | succ n ih =>
      intro cur dur wend c h
      simp only [scanLoop] at h
      by_cases hc : cur + dur ≤ wend
      · rw [if_pos hc] at h
        rcases List.mem_cons.mp h with rfl | h'
        · exact Nat.le_refl _
        · have := ih (cur + 15) dur wend c h'
          omega
      · rw [if_neg hc] at h
        simp at h

theorem dedupe_subset : ∀ (l seen : List Nat) (c : Nat), c ∈ dedupe seen l → c ∈ l := by
  intro l
  induction l with
  | nil => intro seen c h; simp [dedupe] at h
  | cons x rest ih =>
      intro seen c h
      simp only [dedupe] at h
      by_cases hx : x ∈ seen
      · rw [if_pos hx] at h
        exact List.mem_cons_of_mem _ (ih seen c h)
      · rw [if_neg hx] at h
        rcases List.mem_cons.mp h with rfl | h'
        · exact List.mem_cons_self _ _
        · exact List.mem_cons_of_mem _ (ih _ c h')

theorem dedupe_shift : ∀ (l seen : List Nat) (ws : Nat),
    dedupe (seen.map (· + 1440 * ws)) (l.map (· + 1440 * ws)) =
      (dedupe seen l).map (· + 1440 * ws) := by
  intro l
  induction l with
  | nil => intros; rfl
  | cons x rest ih =>
      intro seen ws
      simp only [List.map_cons, dedupe]
      have hmem : (x + 1440 * ws ∈ seen.map (· + 1440 * ws)) ↔ x ∈ seen := by
        constructor
        · intro hc
          rcases List.mem_map.mp hc with ⟨a, ha, hax⟩
          have : a = x := by omega
          subst this; exact ha
        · intro hx
          exact List.mem_map.mpr ⟨x, hx, rfl⟩
      by_cases hx : x ∈ seen
      · rw [if_pos (hmem.mpr hx), if_pos hx, ih]
      · rw [if_neg (fun hc => hx (hmem.mp hc)), if_neg hx]
        have hcons : (x :: seen).map (· + 1440 * ws) =
            (x + 1440 * ws) :: seen.map (· + 1440 * ws) := rfl
        rw [List.map_cons, ← hcons, ih]

theorem prefCandidates_shift (d k dur : Nat) :
    prefCandidates (d + k) dur = (prefCandidates d dur).map (· + 1440 * k) := by
  unfold prefCandidates
  rw [List.map_filterMap]
  congr 1
  funext t
  simp only [day_window, WINDOW_START, WINDOW_END_NEXTDAY]
  by_cases ht : 13 * 60 ≤ t
  · simp only [if_pos ht]
    have hsnap : snap_15 ((d + k) * 1440 + t) = snap_15 (d * 1440 + t) + 1440 * k := by
      have harg : (d + k) * 1440 + t = d * 1440 + t + 1440 * k := by ring
      rw [harg, snap_15_shift]
    rw [hsnap, apply_ite (Option.map fun x => x + 1440 * k)]
    simp only [Option.map_some', Option.map_none']
    refine if_congr ?_ rfl rfl
    constructor <;> intro hc <;> omega
  · simp only [if_neg ht]
    have hsnap : snap_15 ((d + k + 1) * 1440 + t) = snap_15 ((d + 1) * 1440 + t) + 1440 * k := by
      have harg : (d + k + 1) * 1440 + t = (d + 1) * 1440 + t + 1440 * k := by ring
      rw [harg, snap_15_shift]
    rw [hsnap, apply_ite (Option.map fun x => x + 1440 * k)]
    simp only [Option.map_some', Option.map_none']
    refine if_congr ?_ rfl rfl
    constructor <;> intro hc <;> omega

theorem snap_15_window (d : Nat) : snap_15 (d * 1440 + 13 * 60) = d * 1440 + 13 * 60 := by
  unfold snap_15; omega

theorem scanCandidates_shift (d k dur : Nat) :
    scanCandidates (d + k) dur = (scanCandidates d dur).map (· + 1440 * k) := by
  unfold scanCandidates
  simp only [day_window, WINDOW_START, WINDOW_END_NEXTDAY]
  have h1 : (d + k) * 1440 + 13 * 60 = (d * 1440 + 13 * 60) + 1440 * k := by ring
  have h2 : (d + k + 1) * 1440 + 2 * 60 = ((d + 1) * 1440 + 2 * 60) + 1440 * k := by ring
  rw [h1, h2, snap_15_shift, snap_15_window]
  have hfuel : (d + 1) * 1440 + 2 * 60 + 1440 * k + 1 - (d * 1440 + 13 * 60 + 1440 * k) =
      (d + 1) * 1440 + 2 * 60 + 1 - (d * 1440 + 13 * 60) := by omega
  rw [hfuel, scanLoop_shift]

theorem uniqCandidates_shift (d k dur : Nat) :
    uniqCandidates (d + k) dur = (uniqCandidates d dur).map (· + 1440 * k) := by
  unfold uniqCandidates
  rw [prefCandidates_shift, scanCandidates_shift, ← List.map_append]
  exact dedupe_shift (prefCandidates d dur ++ scanCandidates d dur) [] k

theorem prefCandidates_lb (d dur c : Nat) (h : c ∈ prefCandidates d dur) :
    (day_window d).1 ≤ c := by
  unfold prefCandidates at h
  rcases List.mem_filterMap.mp h with ⟨t, _, hf⟩
  by_cases hcond : (day_window d).1 ≤ snap_15 ((if WINDOW_START ≤ t then d else d + 1) * 1440 + t) ∧
      snap_15 ((if WINDOW_START ≤ t then d else d + 1) * 1440 + t) + dur ≤ (day_window d).2
  · rw [if_pos hcond] at hf
    cases hf
    exact hcond.1
  · rw [if_neg hcond] at hf
    cases hf

theorem scanCandidates_lb (d dur c : Nat) (h : c ∈ scanCandidates d dur) :
    (day_window d).1 ≤ c := by
  unfold scanCandidates at h
  have := scanLoop_lb _ _ _ _ _ h
  have hsnap : snap_15 (day_window d).1 = (day_window d).1 := by
    simp only [day_window, WINDOW_START]
    exact snap_15_window d
  omega

theorem uniqCandidates_lb (d dur c : Nat) (h : c ∈ uniqCandidates d dur) :
    (day_window d).1 ≤ c := by
  unfold uniqCandidates at h
  rcases List.mem_append.mp (dedupe_subset _ _ _ h) with h' | h'
  · exact prefCandidates_lb d dur c h'
  · exact scanCandidates_lb d dur c h'

theorem placeLoop_shift (evs : List Event) (name : String) (dur : Nat) (color : String)
    (d k : Nat) : ∀ cands : List Nat, (∀ c ∈ cands, BUFFER_MIN ≤ c) →
    placeLoop (evs.map (shiftEv k)) name dur color (d + k) (cands.map (· + 1440 * k)) =
      Option.map (shiftEv k) (placeLoop evs name dur color d cands) := by
  intro cands
  induction cands with
  | nil => intro _; rfl
  | cons s rest ih =>
      intro hlb
      have hs : BUFFER_MIN ≤ s := hlb s (List.mem_cons_self _ _)
      have hrest : ∀ c ∈ rest, BUFFER_MIN ≤ c :=
        fun c hc => hlb c (List.mem_cons_of_mem _ hc)
      simp only [List.map_cons, placeLoop]
      have e1 : decide ((s + 1440 * k) / 1440 ≠ (s + 1440 * k + dur) / 1440) =
          decide (s / 1440 ≠ (s + dur) / 1440) := decide_eq_decide.mpr (by omega)
      have e2 : decide (1260 < (s + 1440 * k + dur) % 1440) =
          decide (1260 < (s + dur) % 1440) := decide_eq_decide.mpr (by omega)
      have e3 : decide ((s + 1440 * k) % 1440 < 1260) = decide (s % 1440 < 1260) :=
        decide_eq_decide.mpr (by omega)
      have e4 : decide ((s + 1440 * k) / 1440 ≠ d + k) = decide (s / 1440 ≠ d) :=
        decide_eq_decide.mpr (by omega)
      have e5 : can_place (evs.map (shiftEv k)) (s + 1440 * k) (s + 1440 * k + dur) =
          can_place evs s (s + dur) := by
        have harr : s + 1440 * k + dur = s + dur + 1440 * k := by omega
        rw [harr, can_place_shift evs s (s + dur) k hs]
      rw [e1, e2, e3, e4, e5]
      by_cases h1 : (name == "Gym" &&
          (decide (s / 1440 ≠ (s + dur) / 1440) || decide (1260 < (s + dur) % 1440))) = true
      · rw [if_pos h1, if_pos h1, ih hrest]
      · rw [if_neg h1, if_neg h1]
        by_cases h2 : (name == "chessable/website tasks" &&
            (decide (s % 1440 < 1260) || decide (s / 1440 ≠ d))) = true
        · rw [if_pos h2, if_pos h2, ih hrest]
        · rw [if_neg h2, if_neg h2]
          by_cases h3 : can_place evs s (s + dur) = true
          · rw [if_pos h3, if_pos h3]
            have harr : s + 1440 * k + dur = s + dur + 1440 * k := by omega
            rw [harr]
            rfl
          · rw [if_neg h3, if_neg h3, ih hrest]

theorem try_place_shift (ws : Nat) (evs : List Event) (name : String) (dur : Nat)
    (color : String) (wd : Nat) :
    try_place_task_on_day ws (evs.map (shiftEv ws)) name dur color wd =
      Option.map (shiftEv ws) (try_place_task_on_day 0 evs name dur color wd) := by
  simp only [try_place_task_on_day]
  have hd : ws + wd = 0 + wd + ws := by omega
  rw [hd, uniqCandidates_shift]
  refine placeLoop_shift evs name dur color (0 + wd) ws _ fun c hc => ?_
  have hlb := uniqCandidates_lb (0 + wd) dur c hc
  simp only [day_window, WINDOW_START] at hlb
  have hB : BUFFER_MIN = 15 := rfl
  omega

theorem shiftState_events (ws : Nat) (st : SchedState) :
    (shiftState ws st).events = st.events.map (shiftEv ws) := rfl

theorem shiftState_used_days (ws : Nat) (st : SchedState) :
    (shiftState ws st).used_days = st.used_days := rfl

theorem shiftState_tasks_per_day (ws : Nat) (st : SchedState) :
    (shiftState ws st).tasks_per_day = st.tasks_per_day := rfl

theorem shiftState_gym_days (ws : Nat) (st : SchedState) :
    (shiftState ws st).gym_days = st.gym_days := rfl

theorem strictPass_shift (ws : Nat) (st : SchedState) (name : String) (dur : Nat)
    (color : String) : ∀ days : List Nat,
    strictPass ws (shiftState ws st) name dur color days =
      Option.map (fun p => (p.1, shiftEv ws p.2)) (strictPass 0 st name dur color days) := by
  intro days
  induction days with
  | nil => rfl
  | cons wd rest ih =>
      simp only [strictPass, shiftState_events, shiftState_used_days,
        shiftState_tasks_per_day, shiftState_gym_days]
      by_cases h1 : wd ∈ usedOf st.used_days name
      · rw [if_pos h1, if_pos h1, ih]
      · rw [if_neg h1, if_neg h1]
        by_cases h2 : (name == "Opening Study" &&
            decide (wd ∈ usedOf st.used_days "Endgame Study")) = true
        · rw [if_pos h2, if_pos h2, ih]
        · rw [if_neg h2, if_neg h2]
          by_cases h3 : (name == "Endgame Study" &&
              decide (wd ∈ usedOf st.used_days "Opening Study")) = true
          · rw [if_pos h3, if_pos h3, ih]
          · rw [if_neg h3, if_neg h3]
            by_cases h4 : (if wd ≥ 5 then MAX_TASKS_WEEKEND else MAX_TASKS_WEEKDAY) ≤
                st.tasks_per_day.getD wd 0
            · rw [if_pos h4, if_pos h4, ih]
            · rw [if_neg h4, if_neg h4]
              by_cases h5 : (name == "Gym" &&
                  st.gym_days.any fun gd => decide (dayDist wd gd < 2)) = true
              · rw [if_pos h5, if_pos h5, ih]
              · rw [if_neg h5, if_neg h5, try_place_shift]
                cases hres : try_place_task_on_day 0 st.events name dur color wd with
                | some ev => rfl
                | none => simp only [Option.map_none']; exact ih

theorem relaxedPass_shift (ws : Nat) (st : SchedState) (name : String) (dur : Nat)
    (color : String) : ∀ days : List Nat,
    relaxedPass ws (shiftState ws st) name dur color days =
      Option.map (fun p => (p.1, shiftEv ws p.2)) (relaxedPass 0 st name dur color days) := by
  intro days
  induction days with
  | nil => rfl
  | cons wd rest ih =>
      simp only [relaxedPass, shiftState_events, shiftState_used_days, shiftState_gym_days]
      by_cases h1 : wd ∈ usedOf st.used_days name
      · rw [if_pos h1, if_pos h1, ih]
      · rw [if_neg h1, if_neg h1]
        by_cases h2 : (name == "Opening Study" &&
            decide (wd ∈ usedOf st.used_days "Endgame Study")) = true
        · rw [if_pos h2, if_pos h2, ih]
        · rw [if_neg h2, if_neg h2]
          by_cases h3 : (name == "Endgame Study" &&
              decide (wd ∈ usedOf st.used_days "Opening Study")) = true
          · rw [if_pos h3, if_pos h3, ih]
          · rw [if_neg h3, if_neg h3]
            by_cases h5 : (name == "Gym" &&
                st.gym_days.any fun gd => decide (dayDist wd gd < 2)) = true
            · rw [if_pos h5, if_pos h5, ih]
            · rw [if_neg h5, if_neg h5, try_place_shift]
              cases hres : try_place_task_on_day 0 st.events name dur color wd with
              | some ev => rfl
              | none => simp only [Option.map_none']; exact ih

theorem placeOccurrence_shift (ws : Nat) (st : SchedState) (name : String) (dur : Nat)
    (color : String) :
    placeOccurrence ws (shiftState ws st) name dur color =
      shiftState ws (placeOccurrence 0 st name dur color) := by
  unfold placeOccurrence
  rw [strictPass_shift]
  cases hs : strictPass 0 st name dur color preferred_days with
  | some p =>
      obtain ⟨wd, ev⟩ := p
      simp only [Option.map_some', shiftState_events, shiftState_used_days,
        shiftState_tasks_per_day, shiftState_gym_days]
      have hev : st.events.map (shiftEv ws) ++ [shiftEv ws ev] =
          (st.events ++ [ev]).map (shiftEv ws) := by
        rw [List.map_append]; rfl
      rw [hev]
      rfl
  | none =>
      simp only [Option.map_none']
      rw [relaxedPass_shift]
      cases hr : relaxedPass 0 st name dur color preferred_days with
      | some p =>
          obtain ⟨wd, ev⟩ := p
          simp only [Option.map_some', shiftState_events, shiftState_used_days,
            shiftState_gym_days]
          have hev : st.events.map (shiftEv ws) ++ [shiftEv ws ev] =
              (st.events ++ [ev]).map (shiftEv ws) := by
            rw [List.map_append]; rfl
          rw [hev]
          rfl
      | none => rfl

theorem placeOccurrences_shift (ws : Nat) (name : String) (dur : Nat) (color : String) :
    ∀ (count : Nat) (st : SchedState),
    placeOccurrences ws name dur color count (shiftState ws st) =
      shiftState ws (placeOccurrences 0 name dur color count st) := by
  intro count
  induction count with
  | zero => intro st; rfl
  | succ n ih =>
      intro st
      simp only [placeOccurrences]
      rw [placeOccurrence_shift, ih]

theorem runSpecs_shift (ws : Nat) :
    ∀ (specs : List (String × Nat × Nat × String)) (st : SchedState),
    runSpecs ws specs (shiftState ws st) = shiftState ws (runSpecs 0 specs st) := by
  intro specs
  induction specs with
  | nil => intro st; rfl
  | cons spec rest ih =>
      intro st
      obtain ⟨n, dur, cnt, col⟩ := spec
      simp only [runSpecs]
      rw [placeOccurrences_shift, ih]

theorem teachingEvents_shift (ws : Nat) :
    teachingEvents ws = (teachingEvents 0).map (shiftEv ws) := by
  unfold teachingEvents
  rw [List.map_flatMap]
  refine congrArg (List.flatMap (List.range 7)) ?_
  funext wd
  rw [List.map_map]
  refine List.map_congr_left fun p hp => ?_
  simp only [Function.comp_apply, shiftEv, Event.mk.injEq, true_and, and_true]
  constructor <;> omega

theorem initState_shift (ws : Nat) : initState ws = shiftState ws (initState 0) := by
  simp only [initState, shiftState]
  rw [teachingEvents_shift]

theorem rawEvents_shift (ws : Nat) :
    rawEvents ws = (rawEvents 0).map (shiftEv ws) := by
  unfold rawEvents
  rw [initState_shift, runSpecs_shift, shiftState_events]

theorem startLE_shift (ws : Nat) (a b : Event) :
    startLE (shiftEv ws a) (shiftEv ws b) = startLE a b := by
  simp only [startLE, shiftEv_start]
  exact decide_eq_decide.mpr (by omega)

theorem build_events_shift (ws : Nat) :
    build_events ws = (build_events 0).map (shiftEv ws) := by
  unfold build_events
  rw [rawEvents_shift]
  exact (List.map_mergeSort fun a _ b _ => (startLE_shift ws a b).symm).symm

/-! ### The concrete week-0 run -/

/-- The engine's pre-sort event list for week start 0, evaluated once
(`rawEvents_zero` checks it against the engine). -/
def rawList : List Event :=
  [⟨"Beginner Class", 1020, 1080, "#a855f7", "teaching"⟩,
   ⟨"Leo Mootoo", 1095, 1155, "#ef4444", "teaching"⟩,
   ⟨"Pranava Classes", 2250, 2490, "#14b8a6", "teaching"⟩,
   ⟨"Advanced Class", 2550, 2610, "#3b82f6", "teaching"⟩,
   ⟨"Jaydon", 3990, 4050, "#f97316", "teaching"⟩,
   ⟨"Beginner Class", 5340, 5400, "#a855f7", "teaching"⟩,
   ⟨"Leo Mootoo", 6780, 6840, "#ef4444", "teaching"⟩,
   ⟨"Amrit", 9780, 9840, "#84cc16", "teaching"⟩,
   ⟨"My System", 1320, 1380, "#8b5cf6", "task"⟩,
   ⟨"My System", 5640, 5700, "#8b5cf6", "task"⟩,
   ⟨"Calculation", 1395, 1455, "#f472b6", "task"⟩,
   ⟨"Calculation", 5715, 5775, "#f472b6", "task"⟩,
   ⟨"Calculation", 4200, 4260, "#f472b6", "task"⟩,
   ⟨"Calculation", 7080, 7140, "#f472b6", "task"⟩,
   ⟨"Opening Study", 1200, 1260, "#6366f1", "task"⟩,
   ⟨"Opening Study", 5520, 5580, "#6366f1", "task"⟩,
   ⟨"Opening Study", 4275, 4335, "#6366f1", "task"⟩,
   ⟨"Opening Study", 7155, 7215, "#6366f1", "task"⟩,
   ⟨"Opening Study", 8520, 8580, "#6366f1", "task"⟩,
   ⟨"Middlegame Study", 4080, 4170, "#ec4899", "task"⟩,
   ⟨"Middlegame Study", 6960, 7050, "#ec4899", "task"⟩,
   ⟨"Endgame Study", 9960, 10020, "#22c55e", "task"⟩,
   ⟨"Endgame Study", 2760, 2820, "#22c55e", "task"⟩,
   ⟨"chessable/website tasks", 8595, 8715, "#0ea5e9", "task"⟩,
   ⟨"chessable/website tasks", 10035, 10155, "#0ea5e9", "task"⟩,
   ⟨"League Study", 7980, 8100, "#f59e0b", "task"⟩,
   ⟨"League Study", 9420, 9540, "#f59e0b", "task"⟩,
   ⟨"Gym", 8400, 8445, "#10b981", "task"⟩,
   ⟨"Gym", 2640, 2685, "#10b981", "task"⟩]

set_option maxRecDepth 100000 in
theorem rawEvents_zero : rawEvents 0 = rawList := by decide

/-! ### Claim C1: start < end and buffered non-overlap -/

/-- The buffer side of `can_place`, per pair: `a`, expanded by the buffer on
both sides, does not overlap `b`. -/
def bufferedApart (a b : Event) : Bool :=
  !overlaps (a.start - BUFFER_MIN) (a.stop + BUFFER_MIN) b.start b.stop

/-- One pair of distinct events is acceptable: their half-open intervals do
not overlap, and whenever one of them is a task its buffer-expanded interval
still does not overlap the other (what `can_place` checked at placement). -/
def pairOk (a b : Event) : Bool :=
  !overlaps a.start a.stop b.start b.stop &&
  (!(a.kind == "task") || bufferedApart a b) &&
  (!(b.kind == "task") || bufferedApart b a)

/-- All events start strictly before they end. -/
def allStartLtStop (evs : List Event) : Bool :=
  evs.all fun e => decide (e.start < e.stop)

/-- Check `pairOk` over all pairs of distinct events of the list. -/
def pairwiseOk : List Event → Bool
  | [] => true
  | e :: rest => (rest.all fun b => pairOk e b) && pairwiseOk rest

theorem pairwiseOk_iff : ∀ l : List Event,
    pairwiseOk l = true ↔ l.Pairwise fun a b => pairOk a b = true := by
  intro l
  induction l with
  | nil => simp [pairwiseOk]
  | cons e rest ih =>
      simp [pairwiseOk, List.pairwise_cons, List.all_eq_true, ih]

theorem overlaps_comm (p q r s : Nat) : overlaps p q r s = overlaps r s p q := by
  unfold overlaps
  simp [ge_iff_le, Bool.or_comm]

theorem pairOk_symm (a b : Event) : pairOk a b = pairOk b a := by
  unfold pairOk
  rw [overlaps_comm]
  cases hx : (!(a.kind == "task") || bufferedApart a b) <;>
    cases hy : (!(b.kind == "task") || bufferedApart b a) <;>
      simp [hx, hy]

theorem bufferedApart_shift (ws : Nat) (a b : Event) (ha : BUFFER_MIN ≤ a.start) :
    bufferedApart (shiftEv ws a) (shiftEv ws b) = bufferedApart a b := by
  unfold bufferedApart
  rw [shiftEv_start, shiftEv_stop, shiftEv_start, shiftEv_stop]
  have hB : BUFFER_MIN = 15 := rfl
  have h1 : a.start + 1440 * ws - BUFFER_MIN = a.start - BUFFER_MIN + 1440 * ws := by omega
  have h2 : a.stop + 1440 * ws + BUFFER_MIN = a.stop + BUFFER_MIN + 1440 * ws := by omega
  rw [h1, h2, overlaps_shift]

theorem shiftEv_kind (ws : Nat) (e : Event) : (shiftEv ws e).kind = e.kind := rfl

theorem shiftEv_name (ws : Nat) (e : Event) : (shiftEv ws e).name = e.name := rfl

theorem pairOk_shift (ws : Nat) (a b : Event) (ha : BUFFER_MIN ≤ a.start)
    (hb : BUFFER_MIN ≤ b.start) : pairOk (shiftEv ws a) (shiftEv ws b) = pairOk a b := by
  unfold pairOk
  rw [shiftEv_kind, shiftEv_kind, shiftEv_start, shiftEv_stop, shiftEv_start, shiftEv_stop,
    overlaps_shift, bufferedApart_shift ws a b ha, bufferedApart_shift ws b a hb]

/-- C1.  For every week start, every event of the engine's output starts
strictly before it ends, and all pairs of distinct events are non-overlapping,
also after expanding the task side of a pair by the 15-minute buffer (the
`can_place` condition each accepted task placement satisfied). -/
theorem spec_C1_no_overlap (ws : Nat) :
    (allStartLtStop (build_events ws) && pairwiseOk (build_events ws)) = true := by
  have hperm : List.Perm (build_events ws) (rawEvents ws) :=
    List.mergeSort_perm (rawEvents ws) startLE
  rw [Bool.and_eq_true]
  constructor
  · rw [allStartLtStop, List.all_eq_true]
    intro e he
    have he' : e ∈ rawEvents ws := hperm.mem_iff.mp he
    rw [rawEvents_shift] at he'
    rcases List.mem_map.mp he' with ⟨e0, he0, rfl⟩
    have hb : ∀ x ∈ rawEvents 0, x.start < x.stop := by
      rw [rawEvents_zero]; decide
    have := hb e0 he0
    rw [decide_eq_true_eq, shiftEv_start, shiftEv_stop]
    omega
  · rw [pairwiseOk_iff]
    have hsym : ∀ {x y : Event}, pairOk x y = true → pairOk y x = true := by
      intro x y h
      rw [pairOk_symm]
      exact h
    rw [hperm.pairwise_iff hsym, rawEvents_shift, List.pairwise_map]
    have hbase : (rawEvents 0).Pairwise fun a b => pairOk a b = true := by
      rw [← pairwiseOk_iff, rawEvents_zero]
      decide
    have hlb : ∀ x ∈ rawEvents 0, BUFFER_MIN ≤ x.start := by
      rw [rawEvents_zero]; decide
    refine List.Pairwise.imp_of_mem ?_ hbase
    intro a b ha hb h
    rw [pairOk_shift ws a b (hlb a ha) (hlb b hb)]
    exact h

/-! ### Claim C4: Gym events end by 9 PM on their own day; gym days ≥ 2 apart -/

/-- A Gym event's rule as checked at placement: it ends on the calendar day
it starts, at or before 9:00 PM (minute 1260). -/
def gymWithinDay (e : Event) : Bool :=
  decide (e.stop / 1440 = e.start / 1440) && decide (e.stop % 1440 ≤ 1260)

/-- All pairs of the listed events lie on weekdays (relative to week start
`ws`) at distance at least 2. -/
def gymSpacing (ws : Nat) : List Event → Bool
  | [] => true
  | e :: rest =>
      (rest.all fun b => decide (2 ≤ dayDist (e.start / 1440 - ws) (b.start / 1440 - ws))) &&
      gymSpacing ws rest

theorem gymSpacing_iff (ws : Nat) : ∀ l : List Event,
    gymSpacing ws l = true ↔
      l.Pairwise fun a b => 2 ≤ dayDist (a.start / 1440 - ws) (b.start / 1440 - ws) := by
  intro l
  induction l with
  | nil => simp [gymSpacing]
  | cons e rest ih =>
      simp [gymSpacing, List.pairwise_cons, List.all_eq_true, ih]

theorem dayDist_comm (a b : Nat) : dayDist a b = dayDist b a := by
  unfold dayDist; omega

/-- C4.  For every week start, every "Gym" event of the engine's output ends
on the same calendar day it starts with end clock time at or before 9:00 PM,
and any two Gym events lie on weekdays at least 2 apart. -/
theorem spec_C4_gym (ws : Nat) :
    (((build_events ws).filter fun e => e.name == "Gym").all gymWithinDay &&
      gymSpacing ws ((build_events ws).filter fun e => e.name == "Gym")) = true := by
  have hperm : List.Perm (build_events ws) (rawEvents ws) :=
    List.mergeSort_perm (rawEvents ws) startLE
  have hpf : List.Perm ((build_events ws).filter fun e => e.name == "Gym")
      (((rawEvents 0).filter fun e => e.name == "Gym").map (shiftEv ws)) := by
    have h1 := hperm.filter (fun e => e.name == "Gym")
    rw [rawEvents_shift, List.filter_map] at h1
    have hcomp : ((fun e : Event => e.name == "Gym") ∘ shiftEv ws) =
        fun e : Event => e.name == "Gym" := rfl
    rw [hcomp] at h1
    exact h1
  rw [Bool.and_eq_true]
  constructor
  · rw [List.all_eq_true]
    intro e he
    have he' := hpf.mem_iff.mp he
    rcases List.mem_map.mp he' with ⟨e0, he0, rfl⟩
    have hbase : ∀ x ∈ (rawEvents 0).filter (fun e => e.name == "Gym"),
        gymWithinDay x = true := by
      rw [rawEvents_zero]; decide
    have hb := hbase e0 he0
    simp only [gymWithinDay, Bool.and_eq_true, decide_eq_true_eq, shiftEv_start,
      shiftEv_stop] at hb ⊢
    omega
  · rw [gymSpacing_iff]
    have hsym : ∀ {x y : Event}, 2 ≤ dayDist (x.start / 1440 - ws) (y.start / 1440 - ws) →
        2 ≤ dayDist (y.start / 1440 - ws) (x.start / 1440 - ws) := by
      intro x y h
      rw [dayDist_comm]
      exact h
    rw [hpf.pairwise_iff hsym, List.pairwise_map]
    have hbase : ((rawEvents 0).filter fun e => e.name == "Gym").Pairwise
        fun a b => 2 ≤ dayDist (a.start / 1440 - 0) (b.start / 1440 - 0) := by
      rw [← gymSpacing_iff, rawEvents_zero]
      decide
    refine List.Pairwise.imp ?_ hbase
    intro a b h
    have h1 : (shiftEv ws a).start / 1440 - ws = a.start / 1440 - 0 := by
      rw [shiftEv_start]; omega
    have h2 : (shiftEv ws b).start / 1440 - ws = b.start / 1440 - 0 := by
      rw [shiftEv_start]; omega
    rw [h1, h2]
    exact h

/-! ### Claim C5: chessable/website tasks start at/after 9 PM on the assigned day -/

theorem placeLoop_chess : ∀ (cands : List Nat) (evs : List Event) (dur : Nat)
    (color : String) (d : Nat) (ev : Event),
    placeLoop evs "chessable/website tasks" dur color d cands = some ev →
    1260 ≤ ev.start % 1440 ∧ ev.start / 1440 = d := by
  intro cands
  induction cands with
  | nil => intro evs dur color d ev h; cases h
  | cons s rest ih =>
      intro evs dur color d ev h
      simp only [placeLoop] at h
      have hgym : ("chessable/website tasks" == "Gym") = false := by decide
      rw [hgym, Bool.false_and] at h
      simp only [Bool.false_eq_true, if_false] at h
      by_cases hc : ("chessable/website tasks" == "chessable/website tasks" &&
          (decide (s % 1440 < 1260) || decide (s / 1440 ≠ d))) = true
      · rw [if_pos hc] at h
        exact ih evs dur color d ev h
      · rw [if_neg hc] at h
        by_cases hcp : can_place evs s (s + dur) = true
        · rw [if_pos hcp] at h
          cases h
          show 1260 ≤ s % 1440 ∧ s / 1440 = d
          simp only [Bool.and_eq_true, Bool.or_eq_true, decide_eq_true_eq, not_and, not_or,
            not_lt, ne_eq, not_not] at hc
          exact hc (by decide)
        · rw [if_neg hcp] at h
          exact ih evs dur color d ev h

theorem try_place_chess (ws : Nat) (evs : List Event) (dur : Nat) (color : String)
    (wd : Nat) (ev : Event)
    (h : try_place_task_on_day ws evs "chessable/website tasks" dur color wd = some ev) :
    1260 ≤ ev.start % 1440 ∧ ev.start / 1440 = ws + wd := by
  simp only [try_place_task_on_day] at h
  exact placeLoop_chess _ evs dur color (ws + wd) ev h

/-- Every listed event named "chessable/website tasks" starts at clock time
9:00 PM (minute 1260) or later. -/
def chessCheck (evs : List Event) : Bool :=
  evs.all fun e => !(e.name == "chessable/website tasks") || decide (1260 ≤ e.start % 1440)

/-- C5.  For every week start, every "chessable/website tasks" event of the
engine's output starts at or after 9:00 PM; moreover any successful
`try_place_task_on_day` for that task yields a start clock time at or after
9:00 PM whose calendar day is exactly the assigned weekday's date `ws + wd`
(never the rolled-over next day). -/
theorem spec_C5_chess (ws : Nat) :
    chessCheck (build_events ws) = true ∧
    ∀ (evs : List Event) (dur : Nat) (color : String) (wd : Nat) (ev : Event),
      try_place_task_on_day ws evs "chessable/website tasks" dur color wd = some ev →
      1260 ≤ ev.start % 1440 ∧ ev.start / 1440 = ws + wd := by
  constructor
  · have hperm : List.Perm (build_events ws) (rawEvents ws) :=
      List.mergeSort_perm (rawEvents ws) startLE
    rw [chessCheck, List.all_eq_true]
    intro e he
    have he' : e ∈ rawEvents ws := hperm.mem_iff.mp he
    rw [rawEvents_shift] at he'
    rcases List.mem_map.mp he' with ⟨e0, he0, rfl⟩
    have hbase : ∀ x ∈ rawEvents 0,
        (!(x.name == "chessable/website tasks") || decide (1260 ≤ x.start % 1440)) = true := by
      rw [rawEvents_zero]; decide
    have hb := hbase e0 he0
    rw [shiftEv_name, shiftEv_start]
    rw [Bool.or_eq_true] at hb ⊢
    rcases hb with hb | hb
    · exact Or.inl hb
    · right
      rw [decide_eq_true_eq] at hb ⊢
      omega
  · intro evs dur color wd ev h
    exact try_place_chess ws evs dur color wd ev h

/-- Concrete instance of C5's placement clause: placing the task on Monday of
week 0 over an empty event list yields the 10:00 PM slot of that Monday. -/
theorem spec_C5_chess_witness :
    1260 ≤ (Event.mk "chessable/website tasks" 1320 1440 "#0ea5e9" "task").start % 1440 ∧
    (Event.mk "chessable/website tasks" 1320 1440 "#0ea5e9" "task").start / 1440 = 0 + 0 :=
  (spec_C5_chess 0).2 [] 120 "#0ea5e9" 0 _ (by decide)

/-! ### Claim C10: at most `occurrences` task events per catalog entry -/

/-- For every task spec, the number of task-kind events carrying its name is
at most the spec's occurrence count. -/
def countOk (evs : List Event) : Bool :=
  TASK_SPECS.all fun s =>
    decide ((evs.countP fun e => e.name == s.1 && e.kind == "task") ≤ s.2.2.1)

/-- C10.  For every week start and every catalog entry (name, duration,
occurrences, color), the engine's output contains at most `occurrences`
task-kind events with that name. -/
theorem spec_C10_counts (ws : Nat) : countOk (build_events ws) = true := by
  have hperm : List.Perm (build_events ws) (rawEvents ws) :=
    List.mergeSort_perm (rawEvents ws) startLE
  rw [countOk, List.all_eq_true]
  intro s hs
  rw [decide_eq_true_eq, hperm.countP_eq, rawEvents_shift, List.countP_map]
  have hcomp : ((fun e : Event => e.name == s.1 && e.kind == "task") ∘ shiftEv ws) =
      fun e : Event => e.name == s.1 && e.kind == "task" := rfl
  rw [hcomp]
  have hbase : countOk (rawEvents 0) = true := by
    rw [countOk, rawEvents_zero]
    decide
  rw [countOk, List.all_eq_true] at hbase
  have hres := hbase s hs
  rw [decide_eq_true_eq] at hres
  exact hres

/-! ### Claim C2: bookkeeping updates after a successful placement -/

/-- A state whose per-day quotas are all saturated: the strict pass can place
nothing, the relaxed pass can. -/
def c2state : SchedState :=
  ⟨[], TASK_SPECS.map fun s => (s.1, []), [3, 3, 3, 3, 3, 4, 4], []⟩

/-- Refutation of C2 as stated: on `c2state` the strict pass fails everywhere
(quotas saturated), the relaxed pass succeeds (an event is appended and the
weekday recorded in `used_days`), yet `tasks_per_day` is NOT incremented. -/
theorem spec_C2_counterexample :
    strictPass 0 c2state "My System" 60 "#8b5cf6" preferred_days = none ∧
    (placeOccurrence 0 c2state "My System" 60 "#8b5cf6").events.length =
      c2state.events.length + 1 ∧
    usedOf (placeOccurrence 0 c2state "My System" 60 "#8b5cf6").used_days "My System" = [0] ∧
    (placeOccurrence 0 c2state "My System" 60 "#8b5cf6").tasks_per_day =
      c2state.tasks_per_day := by decide

/-- C2 (amended).  A successful strict-pass placement appends the event,
records the weekday in `used_days`, increments `tasks_per_day[wd]`, and (for
"Gym") records the gym day; a successful relaxed-pass placement does the same
except that `tasks_per_day` is left unchanged. -/
theorem spec_C2_updates (ws : Nat) (st : SchedState) (name : String) (dur : Nat)
    (color : String) (wd : Nat) (ev : Event) :
    (strictPass ws st name dur color preferred_days = some (wd, ev) →
      (placeOccurrence ws st name dur color).events = st.events ++ [ev] ∧
      (placeOccurrence ws st name dur color).used_days = addUsed st.used_days name wd ∧
      (placeOccurrence ws st name dur color).tasks_per_day =
        st.tasks_per_day.set wd (st.tasks_per_day.getD wd 0 + 1) ∧
      (placeOccurrence ws st name dur color).gym_days =
        (if name == "Gym" then st.gym_days ++ [wd] else st.gym_days)) ∧
    (strictPass ws st name dur color preferred_days = none →
     relaxedPass ws st name dur color preferred_days = some (wd, ev) →
      (placeOccurrence ws st name dur color).events = st.events ++ [ev] ∧
      (placeOccurrence ws st name dur color).used_days = addUsed st.used_days name wd ∧
      (placeOccurrence ws st name dur color).tasks_per_day = st.tasks_per_day ∧
      (placeOccurrence ws st name dur color).gym_days =
        (if name == "Gym" then st.gym_days ++ [wd] else st.gym_days)) := by
  constructor
  · intro h
    unfold placeOccurrence
    rw [h]
    exact ⟨rfl, rfl, rfl, rfl⟩
  · intro h1 h2
    unfold placeOccurrence
    rw [h1, h2]
    exact ⟨rfl, rfl, rfl, rfl⟩

/-- Concrete instances of both clauses of the amended C2: a strict-pass
placement on the freshly seeded week-0 state increments `tasks_per_day[0]`,
and a relaxed-pass placement on `c2state` leaves `tasks_per_day` unchanged. -/
theorem spec_C2_updates_witness :
    (placeOccurrence 0 (initState 0) "My System" 60 "#8b5cf6").tasks_per_day =
      (initState 0).tasks_per_day.set 0 ((initState 0).tasks_per_day.getD 0 0 + 1) ∧
    (placeOccurrence 0 c2state "My System" 60 "#8b5cf6").tasks_per_day =
      c2state.tasks_per_day :=
  ⟨((spec_C2_updates 0 (initState 0) "My System" 60 "#8b5cf6" 0
      ⟨"My System", 1320, 1380, "#8b5cf6", "task"⟩).1 (by decide)).2.2.1,
   (((spec_C2_updates 0 c2state "My System" 60 "#8b5cf6" 0
      ⟨"My System", 1320, 1380, "#8b5cf6", "task"⟩).2 (by decide)) (by decide)).2.2.1⟩

/-! ### Claim C3: an unplaceable occurrence is silently dropped -/

/-- A state in which "Gym" has already used every weekday, so both passes
fail for a further Gym occurrence. -/
def c3state : SchedState :=
  ⟨[], [("Gym", [0, 1, 2, 3, 4, 5, 6])], List.replicate 7 0, []⟩

/-- C3.  Whenever both the strict pass and the relaxed pass fail for an
occurrence, `placeOccurrence` returns the state unchanged: no event is
created and (the function being total) no error is raised — the occurrence is
simply absent from the output. -/
theorem spec_C3_silent_drop (ws : Nat) (st : SchedState) (name : String) (dur : Nat)
    (color : String)
    (h1 : strictPass ws st name dur color preferred_days = none)
    (h2 : relaxedPass ws st name dur color preferred_days = none) :
    placeOccurrence ws st name dur color = st := by
  unfold placeOccurrence
  rw [h1, h2]

/-- Concrete instance of C3: a Gym occurrence on `c3state` is dropped. -/
theorem spec_C3_silent_drop_witness :
    placeOccurrence 0 c3state "Gym" 45 "#10b981" = c3state :=
  spec_C3_silent_drop 0 c3state "Gym" 45 "#10b981" (by decide) (by decide)

/-! ### Claim C7: the manual override -/

theorem applyOverride_no_match (mon : Nat) : ∀ evs : List Event,
    (∀ e ∈ evs, ¬(e.name = "My System" ∧ e.start / 1440 = mon)) →
    applyOverride mon evs = evs := by
  intro evs
  induction evs with
  | nil => intro _; rfl
  | cons e rest ih =>
      intro h
      have he := h e (List.mem_cons_self _ _)
      have hcond : ¬((e.name == "My System" && e.start / 1440 == mon) = true) := by
        rw [Bool.and_eq_true, beq_iff_eq, beq_iff_eq]
        exact he
      simp only [applyOverride]
      rw [if_neg hcond, ih fun e' he' => h e' (List.mem_cons_of_mem _ he')]

theorem applyOverride_first (mon : Nat) (ev : Event) (post : List Event)
    (hname : ev.name = "My System") (hday : ev.start / 1440 = mon) :
    ∀ pre : List Event, (∀ e ∈ pre, ¬(e.name = "My System" ∧ e.start / 1440 = mon)) →
    applyOverride mon (pre ++ ev :: post) =
      pre ++ { ev with start := mon * 1440 + 780, stop := mon * 1440 + 840 } :: post := by
  intro pre
  induction pre with
  | nil =>
      intro _
      simp only [List.nil_append, applyOverride]
      rw [if_pos (by rw [Bool.and_eq_true, beq_iff_eq, beq_iff_eq]; exact ⟨hname, hday⟩)]
  | cons p pre' ih =>
      intro h
      have hp := h p (List.mem_cons_self _ _)
      have hcond : ¬((p.name == "My System" && p.start / 1440 == mon) = true) := by
        rw [Bool.and_eq_true, beq_iff_eq, beq_iff_eq]
        exact hp
      simp only [List.cons_append, applyOverride, List.append_eq]
      rw [if_neg hcond, ih fun e he => h e (List.mem_cons_of_mem _ he)]

/-- C7.  The manual override is a no-op when no event is a "My System" event
starting on the week's Monday; otherwise it rewrites exactly the first such
event to Monday 13:00–14:00 (1:00–2:00 PM), leaving its name, color and kind,
every preceding event, and every following event unchanged. -/
theorem spec_C7_override (mon : Nat) (evs : List Event) :
    ((∀ e ∈ evs, ¬(e.name = "My System" ∧ e.start / 1440 = mon)) →
      applyOverride mon evs = evs) ∧
    (∀ pre ev post, evs = pre ++ ev :: post →
      (∀ e ∈ pre, ¬(e.name = "My System" ∧ e.start / 1440 = mon)) →
      ev.name = "My System" → ev.start / 1440 = mon →
      applyOverride mon evs =
        pre ++ { ev with start := mon * 1440 + 780, stop := mon * 1440 + 840 } :: post) := by
  constructor
  · exact applyOverride_no_match mon evs
  · intro pre ev post heq hpre hname hday
    subst heq
    exact applyOverride_first mon ev post hname hday pre hpre

/-- Concrete instances of both clauses of C7. -/
theorem spec_C7_override_witness :
    applyOverride 0 [] = ([] : List Event) ∧
    applyOverride 0 [⟨"My System", 900, 960, "#8b5cf6", "task"⟩] =
      [{ (⟨"My System", 900, 960, "#8b5cf6", "task"⟩ : Event) with
          start := 0 * 1440 + 780, stop := 0 * 1440 + 840 }] :=
  ⟨(spec_C7_override 0 []).1 (by simp),
   (spec_C7_override 0 [⟨"My System", 900, 960, "#8b5cf6", "task"⟩]).2 [] _ []
     rfl (by simp) rfl (by decide)⟩

/-! ### Claim C8: output sorted ascending by start -/

/-- C8.  Both the list returned by `build_events` and the list handed to the
renderer and exporter after the manual override are sorted ascending by event
start time. -/
theorem spec_C8_sorted (ws : Nat) :
    (build_events ws).Pairwise (fun a b => startLE a b = true) ∧
    (finalEvents ws).Pairwise (fun a b => startLE a b = true) := by
  have htrans : ∀ a b c : Event, startLE a b → startLE b c → startLE a c := by
    intro a b c h1 h2
    simp only [startLE, decide_eq_true_eq] at h1 h2 ⊢
    omega
  have htotal : ∀ a b : Event, (startLE a b || startLE b a) = true := by
    intro a b
    simp only [startLE]
    rcases Nat.le_total a.start b.start with h | h <;> simp [h]
  exact ⟨List.sorted_mergeSort htrans htotal (rawEvents ws),
         List.sorted_mergeSort htrans htotal (applyOverride ws (build_events ws))⟩

/-! ### Claim C9: determinism -/

/-- C9.  The engine is a pure function of the week start (the teaching table
and the task catalog being fixed): runs with equal inputs yield identical
event lists. -/
theorem spec_C9_deterministic (ws1 ws2 : Nat) (h : ws1 = ws2) :
    build_events ws1 = build_events ws2 := by
  rw [h]

/-- Concrete instance of C9 at week start 0. -/
theorem spec_C9_deterministic_witness : build_events 0 = build_events 0 :=
  spec_C9_deterministic 0 0 rfl

/-! ### Claim C6: Opening Study and Endgame Study never share a weekday -/

theorem addUsed_cons (p : String × List Nat) (u : List (String × List Nat)) (n : String)
    (wd : Nat) :
    addUsed (p :: u) n wd =
      (if (p.1 == n) = true then (p.1, wd :: p.2) else p) :: addUsed u n wd := rfl

theorem usedOf_cons (p : String × List Nat) (u : List (String × List Nat)) (m : String) :
    usedOf (p :: u) m = if (p.1 == m) = true then p.2 else usedOf u m := by
  unfold usedOf
  by_cases hp : (p.1 == m) = true
  · rw [@List.find?_cons_of_pos (String × List Nat) (fun q => q.1 == m) p u hp, if_pos hp]
  · rw [@List.find?_cons_of_neg (String × List Nat) (fun q => q.1 == m) p u hp, if_neg hp]

theorem usedOf_addUsed_ne {n m : String} (hnm : n ≠ m) (wd : Nat) :
    ∀ u : List (String × List Nat), usedOf (addUsed u n wd) m = usedOf u m := by
  intro u
  induction u with
  | nil => rfl
  | cons p u' ih =>
      rw [addUsed_cons, usedOf_cons, usedOf_cons]
      by_cases hp : (p.1 == n) = true
      · rw [if_pos hp]
        have hpm : ¬((p.1 == m) = true) := by
          rw [beq_iff_eq] at hp ⊢
          rw [hp]
          exact hnm
        rw [if_neg (show ¬(((p.1, wd :: p.2).1 == m) = true) from hpm), if_neg hpm]
        exact ih
      · rw [if_neg hp]
        by_cases hm : (p.1 == m) = true
        · rw [if_pos hm, if_pos hm]
        · rw [if_neg hm, if_neg hm]
          exact ih

theorem mem_usedOf_addUsed {n : String} {wd x : Nat} :
    ∀ u : List (String × List Nat),
    x ∈ usedOf (addUsed u n wd) n → x = wd ∨ x ∈ usedOf u n := by
  intro u
  induction u with
  | nil => intro h; exact absurd h (by simp [usedOf, addUsed])
  | cons p u' ih =>
      intro h
      rw [addUsed_cons, usedOf_cons] at h
      rw [usedOf_cons]
      by_cases hp : (p.1 == n) = true
      · rw [if_pos hp] at h
        rw [if_pos (show (((p.1, wd :: p.2)).1 == n) = true from hp)] at h
        have h2 : x ∈ wd :: p.2 := h
        rw [if_pos hp]
        rcases List.mem_cons.mp h2 with rfl | h'
        · exact Or.inl rfl
        · exact Or.inr h'
      · rw [if_neg hp] at h
        rw [if_neg hp] at h
        rw [if_neg hp]
        rcases ih h with h' | h'
        · exact Or.inl h'
        · exact Or.inr h'

theorem strictPass_excl : ∀ (days : List Nat) (ws : Nat) (st : SchedState) (name : String)
    (dur : Nat) (color : String) (wd : Nat) (ev : Event),
    strictPass ws st name dur color days = some (wd, ev) →
    (name = "Opening Study" → wd ∉ usedOf st.used_days "Endgame Study") ∧
    (name = "Endgame Study" → wd ∉ usedOf st.used_days "Opening Study") := by
  intro days
  induction days with
  | nil => intro ws st name dur color wd ev h; cases h
  | cons wd0 rest ih =>
      intro ws st name dur color wd ev h
      simp only [strictPass] at h
      by_cases h1 : wd0 ∈ usedOf st.used_days name
      · rw [if_pos h1] at h
        exact ih ws st name dur color wd ev h
      · rw [if_neg h1] at h
        by_cases h2 : (name == "Opening Study" &&
            decide (wd0 ∈ usedOf st.used_days "Endgame Study")) = true
        · rw [if_pos h2] at h
          exact ih ws st name dur color wd ev h
        · rw [if_neg h2] at h
          by_cases h3 : (name == "Endgame Study" &&
              decide (wd0 ∈ usedOf st.used_days "Opening Study")) = true
          · rw [if_pos h3] at h
            exact ih ws st name dur color wd ev h
          · rw [if_neg h3] at h
            by_cases h4 : (if wd0 ≥ 5 then MAX_TASKS_WEEKEND else MAX_TASKS_WEEKDAY) ≤
                st.tasks_per_day.getD wd0 0
            · rw [if_pos h4] at h
              exact ih ws st name dur color wd ev h
            · rw [if_neg h4] at h
              by_cases h5 : (name == "Gym" &&
                  st.gym_days.any fun gd => decide (dayDist wd0 gd < 2)) = true
              · rw [if_pos h5] at h
                exact ih ws st name dur color wd ev h
              · rw [if_neg h5] at h
                cases hres : try_place_task_on_day ws st.events name dur color wd0 with
                | some ev' =>
                    rw [hres] at h
                    have h'' : (some (wd0, ev') : Option (Nat × Event)) = some (wd, ev) := h
                    injection h'' with hpair
                    cases hpair
                    constructor
                    · intro hn hmem
                      subst hn
                      exact h2 (by simp [hmem])
                    · intro hn hmem
                      subst hn
                      exact h3 (by simp [hmem])
                | none =>
                    rw [hres] at h
                    exact ih ws st name dur color wd ev h

theorem relaxedPass_excl : ∀ (days : List Nat) (ws : Nat) (st : SchedState) (name : String)
    (dur : Nat) (color : String) (wd : Nat) (ev : Event),
    relaxedPass ws st name dur color days = some (wd, ev) →
    (name = "Opening Study" → wd ∉ usedOf st.used_days "Endgame Study") ∧
    (name = "Endgame Study" → wd ∉ usedOf st.used_days "Opening Study") := by
  intro days
  induction days with
  | nil => intro ws st name dur color wd ev h; cases h
  | cons wd0 rest ih =>
      intro ws st name dur color wd ev h
      simp only [relaxedPass] at h
      by_cases h1 : wd0 ∈ usedOf st.used_days name
      · rw [if_pos h1] at h
        exact ih ws st name dur color wd ev h
      · rw [if_neg h1] at h
        by_cases h2 : (name == "Opening Study" &&
            decide (wd0 ∈ usedOf st.used_days "Endgame Study")) = true
        · rw [if_pos h2] at h
          exact ih ws st name dur color wd ev h
        · rw [if_neg h2] at h
          by_cases h3 : (name == "Endgame Study" &&
              decide (wd0 ∈ usedOf st.used_days "Opening Study")) = true
          · rw [if_pos h3] at h
            exact ih ws st name dur color wd ev h
          · rw [if_neg h3] at h
            by_cases h5 : (name == "Gym" &&
                st.gym_days.any fun gd => decide (dayDist wd0 gd < 2)) = true
            · rw [if_pos h5] at h
              exact ih ws st name dur color wd ev h
            · rw [if_neg h5] at h
              cases hres : try_place_task_on_day ws st.events name dur color wd0 with
              | some ev' =>
                  rw [hres] at h
                  have h'' : (some (wd0, ev') : Option (Nat × Event)) = some (wd, ev) := h
                  injection h'' with hpair
                  cases hpair
                  constructor
                  · intro hn hmem
                    subst hn
                    exact h2 (by simp [hmem])
                  · intro hn hmem
                    subst hn
                    exact h3 (by simp [hmem])
              | none =>
                  rw [hres] at h
                  exact ih ws st name dur color wd ev h

/-- The Opening/Endgame disjointness invariant on a scheduling state. -/
def ExclInv (st : SchedState) : Prop :=
  ∀ x, x ∈ usedOf st.used_days "Opening Study" →
    x ∉ usedOf st.used_days "Endgame Study"

theorem placeOccurrence_excl (ws : Nat) (st : SchedState) (name : String) (dur : Nat)
    (color : String) (h : ExclInv st) : ExclInv (placeOccurrence ws st name dur color) := by
  have hne1 : "Opening Study" ≠ "Endgame Study" := by decide
  have hne2 : "Endgame Study" ≠ "Opening Study" := by decide
  unfold placeOccurrence
  cases hs : strictPass ws st name dur color preferred_days with
  | some p =>
      obtain ⟨wd, ev⟩ := p
      have hg := strictPass_excl preferred_days ws st name dur color wd ev hs
      intro x hx hx'
      have hxo : x ∈ usedOf (addUsed st.used_days name wd) "Opening Study" := hx
      have hxe : x ∈ usedOf (addUsed st.used_days name wd) "Endgame Study" := hx'
      by_cases hOp : name = "Opening Study"
      · subst hOp
        rw [usedOf_addUsed_ne hne1 wd st.used_days] at hxe
        rcases mem_usedOf_addUsed st.used_days hxo with rfl | hxo'
        · exact hg.1 rfl hxe
        · exact h x hxo' hxe
      · by_cases hEnd : name = "Endgame Study"
        · subst hEnd
          rw [usedOf_addUsed_ne hne2 wd st.used_days] at hxo
          rcases mem_usedOf_addUsed st.used_days hxe with rfl | hxe'
          · exact hg.2 rfl hxo
          · exact h x hxo hxe'
        · rw [usedOf_addUsed_ne hOp wd st.used_days] at hxo
          rw [usedOf_addUsed_ne hEnd wd st.used_days] at hxe
          exact h x hxo hxe
  | none =>
      cases hr : relaxedPass ws st name dur color preferred_days with
      | some p =>
          obtain ⟨wd, ev⟩ := p
          have hg := relaxedPass_excl preferred_days ws st name dur color wd ev hr
          intro x hx hx'
          have hxo : x ∈ usedOf (addUsed st.used_days name wd) "Opening Study" := hx
          have hxe : x ∈ usedOf (addUsed st.used_days name wd) "Endgame Study" := hx'
          by_cases hOp : name = "Opening Study"
          · subst hOp
            rw [usedOf_addUsed_ne hne1 wd st.used_days] at hxe
            rcases mem_usedOf_addUsed st.used_days hxo with rfl | hxo'
            · exact hg.1 rfl hxe
            · exact h x hxo' hxe
          · by_cases hEnd : name = "Endgame Study"
            · subst hEnd
              rw [usedOf_addUsed_ne hne2 wd st.used_days] at hxo
              rcases mem_usedOf_addUsed st.used_days hxe with rfl | hxe'
              · exact hg.2 rfl hxo
              · exact h x hxo hxe'
            · rw [usedOf_addUsed_ne hOp wd st.used_days] at hxo
              rw [usedOf_addUsed_ne hEnd wd st.used_days] at hxe
              exact h x hxo hxe
      | none => exact h

theorem placeOccurrences_excl (ws : Nat) (name : String) (dur : Nat) (color : String) :
    ∀ (count : Nat) (st : SchedState), ExclInv st →
    ExclInv (placeOccurrences ws name dur color count st) := by
  intro count
  induction count with
  | zero => intro st h; exact h
  | succ n ih =>
      intro st h
      exact ih _ (placeOccurrence_excl ws st name dur color h)

theorem runSpecs_excl (ws : Nat) :
    ∀ (specs : List (String × Nat × Nat × String)) (st : SchedState), ExclInv st →
    ExclInv (runSpecs ws specs st) := by
  intro specs
  induction specs with
  | nil => intro st h; exact h
  | cons spec rest ih =>
      intro st h
      obtain ⟨n, dur, cnt, col⟩ := spec
      exact ih _ (placeOccurrences_excl ws n dur col cnt st h)

/-- C6.  For every week start, after the whole engine run no weekday recorded
as used by "Opening Study" is also recorded as used by "Endgame Study": in
both search passes, each of the two tasks skips every weekday already used by
the other, so they never occupy the same weekday within one generated week. -/
theorem spec_C6_exclusion (ws : Nat) :
    ((usedOf (runSpecs ws TASK_SPECS (initState ws)).used_days "Opening Study").all fun wd =>
      !decide (wd ∈ usedOf (runSpecs ws TASK_SPECS (initState ws)).used_days
        "Endgame Study")) = true := by
  have hinit : ExclInv (initState ws) := by
    intro x hx
    have h0 : usedOf (initState ws).used_days "Opening Study" = [] := rfl
    rw [h0] at hx
    cases hx
  have hfin := runSpecs_excl ws TASK_SPECS (initState ws) hinit
  rw [List.all_eq_true]
  intro wd hwd
  rw [decide_eq_false (hfin wd hwd)]
  rfl
